import Mathlib

/-!
Verification of the console Wordle game (`wordle.py`).

The Python source is shallowly embedded below.  Words are `List Char`
(Python strings restricted to the 5-letter domain of the claims), the
feedback vector is a `List Nat` with the source's encoding 2 = Hit,
1 = Present, 0 = Miss, and the letter-usage flags of the evaluator are a
`List Bool`.  Python loops `for position in range(word_length)` that index
two length-5 sequences in lockstep become structural recursion over the
lists; on the length-5 domain of every claim the two presentations compute
the same function position by position.
-/

namespace Wordle

/-- `MAX_ATTEMPTS = 6` from the source's configuration. -/
def MAX_ATTEMPTS : Nat := 6

/-- `SECRET_WORD_LENGTH = 5` (`GAME_CONFIG['word_length']`). -/
def SECRET_WORD_LENGTH : Nat := 5

/-- `GAME_CONFIG['base_score'] = 3600`. -/
def BASE_SCORE : Int := 3600

/-- `TIME_PENALTY_PER_SECOND = 1` (`GAME_CONFIG['time_penalty']`). -/
def TIME_PENALTY_PER_SECOND : Int := 1

/-- `MAX_ALLOWED_TIME = 3600` seconds (`GAME_CONFIG['max_time']`). -/
def MAX_ALLOWED_TIME : Int := 3600

/-- A word is a list of characters (a Python string). -/
abbrev Word := List Char

/-- The 5-letter lowercase words the claims quantify over. -/
def IsGameWord (w : Word) : Prop :=
  w.length = SECRET_WORD_LENGTH ∧ ∀ c ∈ w, c.isLower = true

instance (w : Word) : Decidable (IsGameWord w) := by
  unfold IsGameWord; infer_instance

/-- The inner loop of pass 2 of `evaluate_guess`:
`for secret_position in range(...): if guessed_word[guess_position] ==
secret_word[secret_position] and not letter_usage_flags[secret_position]:
... letter_usage_flags[secret_position] = True; break`.
Scanning the secret word and the usage flags in lockstep, it sets the flag
of the first secret position holding letter `c` that is not yet consumed
(`break`), returning the updated flags, or `none` when the scan falls
through without finding one. -/
def consumeFirst (c : Char) : List Char → List Bool → Option (List Bool)
  | x :: s, u :: us =>
      if x = c ∧ u = false then some (true :: us)
      else
        match consumeFirst c s us with
        | some v => some (u :: v)
        | none => none
  | _, _ => none

/-- Pass 2 of `evaluate_guess`: walk the guess positions left to right
carrying the feedback entries (`f :: fs`) and the shared
`letter_usage_flags` state.  A position whose pass-1 feedback is `0` is
marked `1` when `consumeFirst` locates (and consumes) an unconsumed
occurrence of its letter in the secret; every other position keeps its
feedback.  Returns the final feedback list and final usage flags. -/
def pass2 (s : List Char) : List Char → List Nat → List Bool → List Nat × List Bool
  | g :: gs, f :: fs, usage =>
      if f = 0 then
        match consumeFirst g s usage with
        | some usage2 =>
            let r := pass2 s gs fs usage2
            (1 :: r.1, r.2)
        | none =>
            let r := pass2 s gs fs usage
            (0 :: r.1, r.2)
      else
        let r := pass2 s gs fs usage
        (f :: r.1, r.2)
  | _, fs, usage => (fs, usage)

/-- `evaluate_guess(guessed_word, secret_word)` from the source.
Pass 1 (`feedback_scores[position] = 2` and
`letter_usage_flags[position] = True` exactly when
`guessed_word[position] == secret_word[position]`) is the positionwise
`zipWith` of the two words starting from the all-zero / all-`False`
initial lists; pass 2 is `pass2`. -/
def evaluate_guess (guessed_word secret_word : Word) : List Nat :=
  let feedback_scores :=
    List.zipWith (fun a b => if a = b then 2 else 0) guessed_word secret_word
  let letter_usage_flags :=
    List.zipWith (fun a b : Char => a == b) guessed_word secret_word
  (pass2 secret_word guessed_word feedback_scores letter_usage_flags).1

/-- `calculate_score(start_time)`.  The wall clock is external, so the
embedding takes `total_seconds = int(end_time - start_time)` (a Python
int, hence `Int`) as input and returns the source's triple
`(final_score, total_seconds, score_valid)`:
`final_score = max(0, base_score - total_seconds * time_penalty)` and
`score_valid = total_seconds <= max_time`. -/
def calculate_score (total_seconds : Int) : Int × Int × Bool :=
  let raw_score := BASE_SCORE
  let penalty := total_seconds * TIME_PENALTY_PER_SECOND
  let final_score := max 0 (raw_score - penalty)
  let score_valid := total_seconds ≤ MAX_ALLOWED_TIME
  (final_score, total_seconds, score_valid)

/-- A line of `high_scores.csv`, as the cells the `csv` module writes:
`save_high_score` writes rows `[str(score), name, date]` under the header
`['score', 'name', 'date']`. -/
abbrev CsvRow := List String

/-- `save_high_score(player_name, score)`.  The file system is external:
the store file is `none` when `high_scores.csv` does not exist and
`some rows` (its lines) otherwise; the current date is a parameter.  The
function opens the file in append mode, writes the header first exactly
when the file did not exist, and appends the single new row. -/
def save_high_score (file : Option (List CsvRow)) (player_name : String)
    (score : Int) (current_date : String) : List CsvRow :=
  let fieldnames : CsvRow := ["score", "name", "date"]
  let new_entry : CsvRow := [toString score, player_name, current_date]
  match file with
  | none => [fieldnames, new_entry]
  | some rows => rows ++ [new_entry]

/-- `handle_win(player_name, start_time)`, restricted to its effect on the
persisted store: it calls `calculate_score` and, only when `score_valid`
is true, appends the score via `save_high_score`; otherwise the store is
untouched.  Returns the store file after the call. -/
def handle_win (file : Option (List CsvRow)) (player_name : String)
    (total_seconds : Int) (current_date : String) : Option (List CsvRow) :=
  let r := calculate_score total_seconds
  if r.2.2 then some (save_high_score file player_name r.1 current_date)
  else file

/-- A parsed high-score record after `row['score'] = int(row['score'])`
succeeded. -/
structure ScoreEntry where
  score : Int
  name : String
  date : String
deriving DecidableEq, Repr

/-- A raw record as `csv.DictReader` yields it.  The `score` field is
`none` when the column is missing (Python `KeyError`), `some none` when it
is present but not an integer literal (Python `ValueError` in `int(...)`),
and `some (some n)` when it parses as the integer `n`. -/
structure RawEntry where
  score : Option (Option Int)
  name : String
  date : String

/-- The `try: row['score'] = int(row['score']) ... except: continue` body
of `load_high_scores`: a raw row is kept, as a `ScoreEntry`, exactly when
its score field is present and an integer. -/
def parseScore : RawEntry → Option ScoreEntry
  | ⟨some (some n), name, date⟩ => some ⟨n, name, date⟩
  | _ => none

/-- The sort relation of `load_high_scores`:
`sorted(high_scores, key=lambda x: x['score'], reverse=True)` orders by
score, highest first. -/
def scoreGE (a b : ScoreEntry) : Prop := b.score ≤ a.score

instance : DecidableRel scoreGE := by
  unfold scoreGE; infer_instance

instance : IsTotal ScoreEntry scoreGE :=
  ⟨fun a b => (Int.le_total b.score a.score).imp id id⟩

instance : IsTrans ScoreEntry scoreGE :=
  ⟨fun _ _ _ h1 h2 => le_trans h2 h1⟩

/-- `load_high_scores()`.  The file system is external, so the embedding
takes the parsed CSV rows (in file order) as input.  Rows whose score is
missing or not an integer are skipped with a warning (`filterMap
parseScore`); the survivors are sorted by score, highest first — Python's
`sorted` with `reverse=True` is a stable sort, which on a decidable total
preorder is exactly `List.insertionSort` with `scoreGE` — and the first 10
are returned. -/
def load_high_scores (rows : List RawEntry) : List ScoreEntry :=
  ((rows.filterMap parseScore).insertionSort scoreGE).take 10

/-- Outcome of the main loop of `play_one_game`.  `Pending n` models the
state in which the loop is blocked inside `get_valid_guess` waiting for
more input (the supplied stream ran out); `n` is `number_of_attempts`. -/
inductive Outcome where
  | Won : Nat → Outcome
  | Lost : Nat → Outcome
  | Pending : Nat → Outcome
deriving DecidableEq, Repr

/-- The main loop of `play_one_game`, as a function of the secret word,
the successive words returned by `get_valid_guess` (already validated),
and `number_of_attempts`:
`while number_of_attempts < max_attempts:` take the next valid guess,
increment the counter, and return `Won` via `handle_win` when the guess
equals the secret; when the loop exits, `handle_loss` runs (`Lost`). -/
def play_loop (chosen_secret_word : Word) :
    List Word → Nat → Outcome
  | guesses, number_of_attempts =>
    if number_of_attempts < MAX_ATTEMPTS then
      match guesses with
      | [] => Outcome.Pending number_of_attempts
      | player_guess :: rest =>
          let n := number_of_attempts + 1
          if player_guess = chosen_secret_word then Outcome.Won n
          else play_loop chosen_secret_word rest n
    else Outcome.Lost number_of_attempts

/-- Python's `str.strip()` on a list of characters: drop whitespace from
both ends. -/
def stripChars (l : List Char) : List Char :=
  ((l.dropWhile Char.isWhitespace).reverse.dropWhile Char.isWhitespace).reverse

/-- `input(...).strip().lower()` at the top of `get_valid_guess`. -/
def normInput (l : List Char) : List Char :=
  (stripChars l).map Char.toLower

/-- `MESSAGES['help_command'] = 'help'`. -/
def helpCommand : List Char := ['h', 'e', 'l', 'p']

/-- `get_valid_guess(valid_words)`: read raw console lines in turn,
normalise each, and loop (`continue`) on the help command, empty input,
wrong length, non-alphabetic input, or a word outside `valid_words`,
in the source's order of checks; return the first surviving guess
together with the unread remainder of the input stream.  `none` models
the loop left blocked because the stream ran out. -/
def get_valid_guess (valid_words : List Word) :
    List (List Char) → Option (Word × List (List Char))
  | [] => none
  | raw :: rest =>
      let guess := normInput raw
      if guess = helpCommand then get_valid_guess valid_words rest
      else if guess = [] then get_valid_guess valid_words rest
      else if guess.length ≠ SECRET_WORD_LENGTH then get_valid_guess valid_words rest
      else if ¬ (guess.all Char.isAlpha = true) then get_valid_guess valid_words rest
      else if guess ∉ valid_words then get_valid_guess valid_words rest
      else some (guess, rest)

/-- The main loop of `play_one_game` again, this time driven by the raw
console input stream through `get_valid_guess`, so that attempt counting
is tied to the validation loop: the counter is incremented exactly once
per word `get_valid_guess` returns.  The loop guard bounds the recursion:
each accepted guess increments `number_of_attempts` toward
`MAX_ATTEMPTS`. -/
def play_loop_raw (valid_words : List Word) (chosen_secret_word : Word) :
    List (List Char) → Nat → Outcome
  | stream, number_of_attempts =>
    if h : number_of_attempts < MAX_ATTEMPTS then
      match get_valid_guess valid_words stream with
      | none => Outcome.Pending number_of_attempts
      | some (player_guess, rest) =>
          let n := number_of_attempts + 1
          if player_guess = chosen_secret_word then Outcome.Won n
          else play_loop_raw valid_words chosen_secret_word rest n
    else Outcome.Lost number_of_attempts
  termination_by stream n => MAX_ATTEMPTS - n
  decreasing_by
    simp_wf
    omega

/-! ### Counting helpers for the evaluator -/

/-- Number of guess positions holding letter `L` whose feedback is marked
(`Hit` or `Present`, i.e. nonzero). -/
def countMarked (L : Char) (g : Word) (fb : List Nat) : Nat :=
  (g.zip fb).countP fun p => p.1 == L && !(p.2 == 0)

/-- Number of guess positions holding letter `L` whose feedback is `Miss`
(zero). -/
def countMissed (L : Char) (g : Word) (fb : List Nat) : Nat :=
  (g.zip fb).countP fun p => p.1 == L && (p.2 == 0)

/-- Number of secret positions holding letter `L` already consumed. -/
def countUsed (L : Char) (s : Word) (us : List Bool) : Nat :=
  (s.zip us).countP fun p => p.1 == L && p.2

/-- Number of secret positions holding letter `L` still unconsumed. -/
def countFree (L : Char) (s : Word) (us : List Bool) : Nat :=
  (s.zip us).countP fun p => p.1 == L && !p.2

theorem consumeFirst_length (c : Char) :
    ∀ s us us2, consumeFirst c s us = some us2 → us2.length = us.length := by
  intro s
  induction s with
  | nil => intro us us2 h; simp [consumeFirst] at h
  | cons x s ih =>
      intro us us2 h
      cases us with
      | nil => simp [consumeFirst] at h
      | cons u us =>
          simp only [consumeFirst] at h
          split_ifs at h with hx
          · cases h; simp
          · rcases h4 : consumeFirst c s us with _ | v
            · simp [h4] at h
            · simp only [h4] at h
              cases h
              simp [ih us v h4]

theorem pass2_fst_length (s : List Char) :
    ∀ gs fs us, ((pass2 s gs fs us).1).length = fs.length := by
  intro gs
  induction gs with
  | nil => intro fs us; simp [pass2]
  | cons g gs ih =>
      intro fs us
      cases fs with
      | nil => simp [pass2]
      | cons f fs =>
          by_cases hf : f = 0
          · rcases h2 : consumeFirst g s us with _ | us2 <;>
              simp [pass2, hf, h2, ih]
          · simp [pass2, hf, ih]

theorem pass2_snd_length (s : List Char) :
    ∀ gs fs us, ((pass2 s gs fs us).2).length = us.length := by
  intro gs
  induction gs with
  | nil => intro fs us; simp [pass2]
  | cons g gs ih =>
      intro fs us
      cases fs with
      | nil => simp [pass2]
      | cons f fs =>
          by_cases hf : f = 0
          · rcases h2 : consumeFirst g s us with _ | us2
            · simp [pass2, hf, h2, ih]
            · have hl : us2.length = us.length :=
                consumeFirst_length g s us us2 h2
              simp [pass2, hf, h2, ih, hl]
          · simp [pass2, hf, ih]

/-- Consuming a position raises `countUsed` by one and lowers `countFree`
by one for the letter consumed, and changes neither count for any other
letter. -/
theorem consumeFirst_counts (L c : Char) :
    ∀ s us us2, consumeFirst c s us = some us2 →
      countUsed L s us2 = countUsed L s us + (if c = L then 1 else 0) ∧
      countFree L s us = countFree L s us2 + (if c = L then 1 else 0) := by
  intro s
  induction s with
  | nil => intro us us2 h; simp [consumeFirst] at h
  | cons x s ih =>
      intro us us2 h
      cases us with
      | nil => simp [consumeFirst] at h
      | cons u us =>
          simp only [consumeFirst] at h
          split_ifs at h with hx
          · obtain ⟨rfl, rfl⟩ := hx
            cases h
            by_cases hL : x = L <;>
              simp [countUsed, countFree, List.countP_cons, hL]
          · rcases h4 : consumeFirst c s us with _ | v
            · simp [h4] at h
            · simp only [h4] at h
              cases h
              obtain ⟨ih1, ih2⟩ := ih us v h4
              simp only [countUsed, countFree, List.zip_cons_cons,
                List.countP_cons] at ih1 ih2 ⊢
              omega

/-- When the pass-2 scan falls through without a `break`, no unconsumed
occurrence of the letter remains in the secret. -/
theorem consumeFirst_none (c : Char) :
    ∀ s us, consumeFirst c s us = none → countFree c s us = 0 := by
  intro s
  induction s with
  | nil => intro us _; simp [countFree]
  | cons x s ih =>
      intro us h
      cases us with
      | nil => simp [countFree]
      | cons u us =>
          simp only [consumeFirst] at h
          split_ifs at h with hx
          rcases h4 : consumeFirst c s us with _ | v
          · have htail := ih us h4
            have hh : (x == c && !u) = false := by
              cases u with
              | false =>
                  have hxc : ¬ x = c := fun hh => hx ⟨hh, rfl⟩
                  simp [hxc]
              | true => simp
            simp only [countFree, List.zip_cons_cons,
              List.countP_cons] at htail ⊢
            simp [hh, htail]
          · simp [h4] at h

/-- Pass 2 never frees a consumed position: `countFree` only shrinks. -/
theorem pass2_countFree_le (L : Char) (s : List Char) :
    ∀ gs fs us, countFree L s (pass2 s gs fs us).2 ≤ countFree L s us := by
  intro gs
  induction gs with
  | nil => intro fs us; simp [pass2]
  | cons g gs ih =>
      intro fs us
      cases fs with
      | nil => simp [pass2]
      | cons f fs =>
          by_cases hf : f = 0
          · rcases h2 : consumeFirst g s us with _ | us2
            · simpa [pass2, hf, h2] using ih fs us
            · have hc := (consumeFirst_counts L g s us us2 h2).2
              calc countFree L s (pass2 s (g :: gs) (f :: fs) us).2
                  = countFree L s (pass2 s gs fs us2).2 := by
                    simp [pass2, hf, h2]
                _ ≤ countFree L s us2 := ih fs _
                _ ≤ countFree L s us := by omega
          · simpa [pass2, hf] using ih fs us

theorem countUsed_add_countFree (L : Char) :
    ∀ s us, s.length = us.length →
      countUsed L s us + countFree L s us = s.count L := by
  intro s
  induction s with
  | nil => intro us h; simp [countUsed, countFree]
  | cons x s ih =>
      intro us h
      cases us with
      | nil => simp at h
      | cons u us =>
          have hlen : s.length = us.length := by simpa using h
          have htail := ih us hlen
          simp only [countUsed, countFree, List.zip_cons_cons,
            List.countP_cons, List.count_cons] at htail ⊢
          by_cases hL : x = L <;> cases u <;> simp [hL] <;> omega

theorem countMarked_add_countMissed (L : Char) :
    ∀ g fb, countMarked L g fb + countMissed L g fb =
      (g.zip fb).countP (fun p => p.1 == L) := by
  intro g
  induction g with
  | nil => intro fb; simp [countMarked, countMissed]
  | cons a g ih =>
      intro fb
      cases fb with
      | nil => simp [countMarked, countMissed]
      | cons f fb =>
          have htail := ih fb
          simp only [countMarked, countMissed, List.zip_cons_cons,
            List.countP_cons] at htail ⊢
          by_cases hL : a = L <;> by_cases hf : f = 0 <;>
            simp [hL, hf] <;> omega

theorem countP_zip_fst (L : Char) :
    ∀ (g : List Char) (fb : List Nat), g.length = fb.length →
      (g.zip fb).countP (fun p => p.1 == L) = g.count L := by
  intro g
  induction g with
  | nil => intro fb h; simp
  | cons a g ih =>
      intro fb h
      cases fb with
      | nil => simp at h
      | cons f fb =>
          have hlen : g.length = fb.length := by simpa using h
          by_cases hL : a = L <;>
            simp [List.countP_cons, List.count_cons, hL, ih fb hlen]

theorem pass2_fst_cons_ne (s : List Char) (g : Char) (gs : List Char)
    (f : Nat) (fs : List Nat) (us : List Bool) (hf : f ≠ 0) :
    (pass2 s (g :: gs) (f :: fs) us).1 = f :: (pass2 s gs fs us).1 := by
  simp [pass2, hf]

theorem pass2_snd_cons_ne (s : List Char) (g : Char) (gs : List Char)
    (f : Nat) (fs : List Nat) (us : List Bool) (hf : f ≠ 0) :
    (pass2 s (g :: gs) (f :: fs) us).2 = (pass2 s gs fs us).2 := by
  simp [pass2, hf]

theorem pass2_fst_cons_zero_some (s : List Char) (g : Char) (gs : List Char)
    (fs : List Nat) (us us2 : List Bool)
    (h2 : consumeFirst g s us = some us2) :
    (pass2 s (g :: gs) (0 :: fs) us).1 = 1 :: (pass2 s gs fs us2).1 := by
  simp [pass2, h2]

theorem pass2_snd_cons_zero_some (s : List Char) (g : Char) (gs : List Char)
    (fs : List Nat) (us us2 : List Bool)
    (h2 : consumeFirst g s us = some us2) :
    (pass2 s (g :: gs) (0 :: fs) us).2 = (pass2 s gs fs us2).2 := by
  simp [pass2, h2]

theorem pass2_fst_cons_zero_none (s : List Char) (g : Char) (gs : List Char)
    (fs : List Nat) (us : List Bool) (h2 : consumeFirst g s us = none) :
    (pass2 s (g :: gs) (0 :: fs) us).1 = 0 :: (pass2 s gs fs us).1 := by
  simp [pass2, h2]

theorem pass2_snd_cons_zero_none (s : List Char) (g : Char) (gs : List Char)
    (fs : List Nat) (us : List Bool) (h2 : consumeFirst g s us = none) :
    (pass2 s (g :: gs) (0 :: fs) us).2 = (pass2 s gs fs us).2 := by
  simp [pass2, h2]

/-- The conservation invariant of pass 2: every newly marked guess
position consumes exactly one matching secret position, so the number of
marked guess positions holding `L` and the number of consumed secret
positions holding `L` grow in lockstep. -/
theorem pass2_invariant (L : Char) (s : List Char) :
    ∀ gs fs us,
      countMarked L gs (pass2 s gs fs us).1 + countUsed L s us =
        countMarked L gs fs + countUsed L s (pass2 s gs fs us).2 := by
  intro gs
  induction gs with
  | nil => intro fs us; simp [pass2, countMarked]
  | cons g gs ih =>
      intro fs us
      cases fs with
      | nil => simp [pass2, countMarked]
      | cons f fs =>
          by_cases hf : f = 0
          · subst hf
            rcases h2 : consumeFirst g s us with _ | us2
            · rw [pass2_fst_cons_zero_none s g gs fs us h2,
                pass2_snd_cons_zero_none s g gs fs us h2]
              have hI := ih fs us
              simp only [countMarked, countUsed, List.zip_cons_cons,
                List.countP_cons] at hI ⊢
              omega
            · rw [pass2_fst_cons_zero_some s g gs fs us us2 h2,
                pass2_snd_cons_zero_some s g gs fs us us2 h2]
              have hI := ih fs us2
              have hC := (consumeFirst_counts L g s us us2 h2).1
              simp only [countMarked, countUsed, List.zip_cons_cons,
                List.countP_cons] at hI hC ⊢
              by_cases hgL : g = L <;> simp [hgL] at hC ⊢ <;> omega
          · rw [pass2_fst_cons_ne s g gs f fs us hf,
              pass2_snd_cons_ne s g gs f fs us hf]
            have hI := ih fs us
            simp only [countMarked, countUsed, List.zip_cons_cons,
              List.countP_cons] at hI ⊢
            omega

/-- If some occurrence of `L` in the secret is still unconsumed when
pass 2 finishes, then pass 2 marked every guess position holding `L`
(a guess position is only left `Miss` when its letter had no unconsumed
occurrence at its turn, and consumption only shrinks `countFree`). -/
theorem pass2_marks_all (L : Char) (s : List Char) :
    ∀ gs fs us, gs.length = fs.length →
      0 < countFree L s (pass2 s gs fs us).2 →
      countMarked L gs (pass2 s gs fs us).1 = gs.count L := by
  intro gs
  induction gs with
  | nil => intro fs us _ _; simp [pass2, countMarked]
  | cons g gs ih =>
      intro fs us hlen hfree
      cases fs with
      | nil => simp at hlen
      | cons f fs =>
          have hlen2 : gs.length = fs.length := by simpa using hlen
          by_cases hf : f = 0
          · subst hf
            rcases h2 : consumeFirst g s us with _ | us2
            · rw [pass2_snd_cons_zero_none s g gs fs us h2] at hfree
              rw [pass2_fst_cons_zero_none s g gs fs us h2]
              have hgL : ¬ g = L := by
                intro hgl
                subst hgl
                have h0 := consumeFirst_none g s us h2
                have hle := pass2_countFree_le g s gs fs us
                omega
              have hI := ih fs us hlen2 hfree
              simp only [countMarked, List.zip_cons_cons, List.countP_cons,
                List.count_cons] at hI ⊢
              simp [hgL, hI]
            · rw [pass2_snd_cons_zero_some s g gs fs us us2 h2] at hfree
              rw [pass2_fst_cons_zero_some s g gs fs us us2 h2]
              have hI := ih fs us2 hlen2 hfree
              simp only [countMarked, List.zip_cons_cons, List.countP_cons,
                List.count_cons] at hI ⊢
              by_cases hgL : g = L <;> simp [hgL, hI]
          · rw [pass2_snd_cons_ne s g gs f fs us hf] at hfree
            rw [pass2_fst_cons_ne s g gs f fs us hf]
            have hI := ih fs us hlen2 hfree
            have hff : (f == 0) = false := by simpa using hf
            simp only [countMarked, List.zip_cons_cons, List.countP_cons,
              List.count_cons] at hI ⊢
            by_cases hgL : g = L <;> simp [hgL, hff, hI]

/-- Pass 2 never writes a `2`: the multiset of `Hit` marks is exactly the
one produced by pass 1. -/
theorem pass2_count_two (s : List Char) :
    ∀ gs fs us, ((pass2 s gs fs us).1).count 2 = fs.count 2 := by
  intro gs
  induction gs with
  | nil => intro fs us; simp [pass2]
  | cons g gs ih =>
      intro fs us
      cases fs with
      | nil => simp [pass2]
      | cons f fs =>
          by_cases hf : f = 0
          · subst hf
            rcases h2 : consumeFirst g s us with _ | us2
            · rw [pass2_fst_cons_zero_none s g gs fs us h2]
              simp [List.count_cons, ih]
            · rw [pass2_fst_cons_zero_some s g gs fs us us2 h2]
              simp [List.count_cons, ih]
          · rw [pass2_fst_cons_ne s g gs f fs us hf]
            simp [List.count_cons, ih]

/-- Every feedback entry after pass 2 is 0, 1 or 2 provided every entry
before it was 0 or 2 (pass 1 only writes 0 and 2; pass 2 only writes 1). -/
theorem pass2_mem (s : List Char) :
    ∀ gs fs us, (∀ f ∈ fs, f = 0 ∨ f = 2) →
      ∀ x ∈ (pass2 s gs fs us).1, x = 0 ∨ x = 1 ∨ x = 2 := by
  intro gs
  induction gs with
  | nil =>
      intro fs us hfs x hx
      simp only [pass2] at hx
      rcases hfs x hx with h | h
      · exact Or.inl h
      · exact Or.inr (Or.inr h)
  | cons g gs ih =>
      intro fs us hfs x hx
      cases fs with
      | nil => simp [pass2] at hx
      | cons f fs =>
          have htail : ∀ y ∈ fs, y = 0 ∨ y = 2 :=
            fun y hy => hfs y (List.mem_cons_of_mem f hy)
          by_cases hf : f = 0
          · subst hf
            rcases h2 : consumeFirst g s us with _ | us2
            · rw [pass2_fst_cons_zero_none s g gs fs us h2] at hx
              rcases List.mem_cons.mp hx with rfl | hx2
              · exact Or.inl rfl
              · exact ih fs us htail x hx2
            · rw [pass2_fst_cons_zero_some s g gs fs us us2 h2] at hx
              rcases List.mem_cons.mp hx with rfl | hx2
              · exact Or.inr (Or.inl rfl)
              · exact ih fs us2 htail x hx2
          · rw [pass2_fst_cons_ne s g gs f fs us hf] at hx
            rcases List.mem_cons.mp hx with rfl | hx2
            · rcases hfs x (List.mem_cons_self x fs) with h | h
              · exact Or.inl h
              · exact Or.inr (Or.inr h)
            · exact ih fs us htail x hx2

/-- A position whose pass-1 feedback is nonzero is never overwritten by
pass 2. -/
theorem pass2_getD_nonzero (s : List Char) :
    ∀ gs fs us i (d : Nat), fs.getD i d ≠ 0 →
      ((pass2 s gs fs us).1).getD i d = fs.getD i d := by
  intro gs
  induction gs with
  | nil => intro fs us i d _; simp [pass2]
  | cons g gs ih =>
      intro fs us i d hne
      cases fs with
      | nil => simp [pass2]
      | cons f fs =>
          cases i with
          | zero =>
              have hf : ¬ f = 0 := by simpa using hne
              rw [pass2_fst_cons_ne s g gs f fs us hf]
              simp
          | succ i =>
              have htail : fs.getD i d ≠ 0 := by simpa using hne
              by_cases hf : f = 0
              · subst hf
                rcases h2 : consumeFirst g s us with _ | us2
                · rw [pass2_fst_cons_zero_none s g gs fs us h2]
                  simpa using ih fs us i d htail
                · rw [pass2_fst_cons_zero_some s g gs fs us us2 h2]
                  simpa using ih fs us2 i d htail
              · rw [pass2_fst_cons_ne s g gs f fs us hf]
                simpa using ih fs us i d htail

/-! ### Pass-1 (zipWith) facts -/

theorem zipWith_feedback_count_two :
    ∀ (g s : List Char),
      (List.zipWith (fun a b => if a = b then 2 else 0) g s).count 2 =
        (g.zip s).countP (fun p => p.1 == p.2) := by
  intro g
  induction g with
  | nil => intro s; simp
  | cons a g ih =>
      intro s
      cases s with
      | nil => simp
      | cons b s =>
          by_cases hab : a = b <;>
            simp [List.count_cons, List.countP_cons, hab, ih s]

theorem zipWith_marked_eq_used (L : Char) :
    ∀ (g s : List Char),
      countMarked L g (List.zipWith (fun a b => if a = b then 2 else 0) g s) =
        countUsed L s (List.zipWith (fun a b : Char => a == b) g s) := by
  intro g
  induction g with
  | nil => intro s; simp [countMarked, countUsed]
  | cons a g ih =>
      intro s
      cases s with
      | nil => simp [countMarked, countUsed]
      | cons b s =>
          have htail := ih s
          simp only [countMarked, countUsed, List.zipWith_cons_cons,
            List.zip_cons_cons, List.countP_cons] at htail ⊢
          by_cases hab : a = b
          · subst hab
            simp [htail]
          · simp [hab, htail]

theorem zipWith_feedback_mem :
    ∀ (g s : List Char),
      ∀ x ∈ List.zipWith (fun a b => if a = b then 2 else 0) g s,
        x = 0 ∨ x = 2 := by
  intro g
  induction g with
  | nil => intro s x hx; simp at hx
  | cons a g ih =>
      intro s x hx
      cases s with
      | nil => simp at hx
      | cons b s =>
          simp only [List.zipWith_cons_cons, List.mem_cons] at hx
          rcases hx with rfl | hx
          · by_cases hab : a = b <;> simp [hab]
          · exact ih s x hx

theorem zipWith_feedback_getD :
    ∀ (g s : List Char) (i : Nat), i < g.length → i < s.length →
      g.getD i 'a' = s.getD i 'a' →
      (List.zipWith (fun a b => if a = b then 2 else 0) g s).getD i 3 = 2 := by
  intro g
  induction g with
  | nil => intro s i hi _ _; simp at hi
  | cons a g ih =>
      intro s i hi hs heq
      cases s with
      | nil => simp at hs
      | cons b s =>
          cases i with
          | zero => simp_all
          | succ i =>
              have hi2 : i < g.length := by simpa using hi
              have hs2 : i < s.length := by simpa using hs
              have heq2 : g.getD i 'a' = s.getD i 'a' := by simpa using heq
              simpa using ih s i hi2 hs2 heq2

theorem zipWith_feedback_self :
    ∀ (w : List Char),
      List.zipWith (fun a b => if a = b then 2 else 0) w w =
        List.replicate w.length 2 := by
  intro w
  induction w with
  | nil => simp
  | cons a w ih => simp [ih, List.replicate_succ]

theorem eq_of_zip_eq :
    ∀ (g s : List Char), g.length = s.length →
      (∀ p ∈ g.zip s, p.1 = p.2) → g = s := by
  intro g
  induction g with
  | nil =>
      intro s h _
      cases s with
      | nil => rfl
      | cons b s => simp at h
  | cons a g ih =>
      intro s h hall
      cases s with
      | nil => simp at h
      | cons b s =>
          have hab : a = b := hall (a, b) (by simp)
          have htail := ih s (by simpa using h)
            (fun p hp => hall p (List.mem_cons_of_mem _ hp))
          rw [hab, htail]

/-! ### Facts about `evaluate_guess` shared by several claims -/

theorem evaluate_guess_unfold (g s : Word) :
    evaluate_guess g s =
      (pass2 s g (List.zipWith (fun a b => if a = b then 2 else 0) g s)
        (List.zipWith (fun a b : Char => a == b) g s)).1 := rfl

theorem pass2_fst_id (s : List Char) :
    ∀ gs fs us, (∀ f ∈ fs, f ≠ 0) → (pass2 s gs fs us).1 = fs := by
  intro gs
  induction gs with
  | nil => intro fs us _; simp [pass2]
  | cons g gs ih =>
      intro fs us hfs
      cases fs with
      | nil => simp [pass2]
      | cons f fs =>
          have hf : f ≠ 0 := hfs f (List.mem_cons_self f fs)
          rw [pass2_fst_cons_ne s g gs f fs us hf,
            ih fs us (fun y hy => hfs y (List.mem_cons_of_mem f hy))]

theorem evaluate_guess_count_two (g s : Word) :
    (evaluate_guess g s).count 2 =
      (g.zip s).countP (fun p => p.1 == p.2) := by
  rw [evaluate_guess_unfold, pass2_count_two, zipWith_feedback_count_two]

theorem evaluate_guess_length (g s : Word) :
    (evaluate_guess g s).length = min g.length s.length := by
  rw [evaluate_guess_unfold, pass2_fst_length]
  simp

/-! ### Claim theorems about the evaluator -/

/-- C1: for every pair of 5-letter lowercase words (guess, secret) and
every letter `L`, the number of guess positions that `evaluate_guess`
marks Hit (2) or Present (1) and whose guess letter is `L` is at most the
number of occurrences of `L` in the secret; and when the guess contains
more occurrences of `L` than the secret does, exactly the secret's
multiplicity of `L` is marked Hit/Present and every excess occurrence is
marked Miss (0). -/
theorem evaluate_guess_letter_conservation (g s : Word)
    (hg : IsGameWord g) (hs : IsGameWord s) (L : Char) :
    countMarked L g (evaluate_guess g s) ≤ s.count L ∧
    (s.count L < g.count L →
      countMarked L g (evaluate_guess g s) = s.count L ∧
      countMissed L g (evaluate_guess g s) = g.count L - s.count L) := by
  have hgl5 : g.length = 5 := hg.1
  have hsl5 : s.length = 5 := hs.1
  rw [evaluate_guess_unfold]
  set fb0 := List.zipWith (fun a b => if a = b then 2 else 0) g s with hfb
  set us0 := List.zipWith (fun a b : Char => a == b) g s with hus
  have hfb0len : fb0.length = 5 := by
    rw [hfb]; simp [hgl5, hsl5]
  have hus0len : us0.length = 5 := by
    rw [hus]; simp [hgl5, hsl5]
  have hfin2len : ((pass2 s g fb0 us0).2).length = 5 := by
    rw [pass2_snd_length]; exact hus0len
  have hfin1len : ((pass2 s g fb0 us0).1).length = 5 := by
    rw [pass2_fst_length]; exact hfb0len
  have hInv := pass2_invariant L s g fb0 us0
  have hInit : countMarked L g fb0 = countUsed L s us0 := by
    rw [hfb, hus]; exact zipWith_marked_eq_used L g s
  have hUF : countUsed L s (pass2 s g fb0 us0).2 +
      countFree L s (pass2 s g fb0 us0).2 = s.count L :=
    countUsed_add_countFree L s _ (by rw [hfin2len]; exact hsl5)
  have hMM := countMarked_add_countMissed L g (pass2 s g fb0 us0).1
  have hPF : (g.zip (pass2 s g fb0 us0).1).countP (fun p => p.1 == L) =
      g.count L :=
    countP_zip_fst L g _ (by rw [hfin1len]; exact hgl5)
  constructor
  · omega
  · intro hcnt
    by_cases hfree : countFree L s (pass2 s g fb0 us0).2 = 0
    · constructor <;> omega
    · have hAll := pass2_marks_all L s g fb0 us0
        (by rw [hfb0len]; exact hgl5) (by omega)
      constructor <;> omega

/-- Witness for `evaluate_guess_letter_conservation` at concrete words:
guess "geese" has three e's, secret "eagle" only two. -/
theorem evaluate_guess_letter_conservation_witness :
    IsGameWord "geese".toList ∧ IsGameWord "eagle".toList ∧
    (countMarked 'e' "geese".toList
        (evaluate_guess "geese".toList "eagle".toList) ≤
      ("eagle".toList).count 'e' ∧
    (("eagle".toList).count 'e' < ("geese".toList).count 'e' →
      countMarked 'e' "geese".toList
          (evaluate_guess "geese".toList "eagle".toList) =
        ("eagle".toList).count 'e' ∧
      countMissed 'e' "geese".toList
          (evaluate_guess "geese".toList "eagle".toList) =
        ("geese".toList).count 'e' - ("eagle".toList).count 'e')) :=
  ⟨by decide, by decide,
    evaluate_guess_letter_conservation "geese".toList "eagle".toList
      (by decide) (by decide) 'e'⟩

/-- C6: for every 5-letter lowercase word, evaluating it against itself
yields the all-Hit vector `[2, 2, 2, 2, 2]`; conversely, an all-Hit
feedback vector forces guess = secret. -/
theorem evaluate_guess_all_hit_iff (g s : Word)
    (hg : IsGameWord g) (hs : IsGameWord s) :
    evaluate_guess s s = [2, 2, 2, 2, 2] ∧
    (evaluate_guess g s = [2, 2, 2, 2, 2] → g = s) := by
  constructor
  · have hnz : ∀ f ∈ List.zipWith (fun a b => if a = b then 2 else 0) s s,
        f ≠ 0 := by
      intro f hf
      rw [zipWith_feedback_self] at hf
      rw [List.eq_of_mem_replicate hf]
      omega
    rw [evaluate_guess_unfold, pass2_fst_id s s _ _ hnz,
      zipWith_feedback_self, hs.1]
    decide
  · intro hall
    have hc2 : (g.zip s).countP (fun p => p.1 == p.2) = 5 := by
      rw [← evaluate_guess_count_two, hall]
      rfl
    have hzl : (g.zip s).length = 5 := by
      rw [List.length_zip, hg.1, hs.1]
      decide
    have hmem := List.countP_eq_length.mp (by rw [hc2, hzl])
    refine eq_of_zip_eq g s (by rw [hg.1, hs.1]) ?_
    intro p hp
    simpa using hmem p hp

/-- Witness for `evaluate_guess_all_hit_iff` with two concrete words. -/
theorem evaluate_guess_all_hit_iff_witness :
    IsGameWord "crane".toList ∧ IsGameWord "slate".toList ∧
    (evaluate_guess "slate".toList "slate".toList = [2, 2, 2, 2, 2] ∧
    (evaluate_guess "crane".toList "slate".toList = [2, 2, 2, 2, 2] →
      "crane".toList = "slate".toList)) :=
  ⟨by decide, by decide,
    evaluate_guess_all_hit_iff "crane".toList "slate".toList
      (by decide) (by decide)⟩

/-- C7: the number of positions `evaluate_guess` marks Hit (2) equals the
number of positions at which the guess and the secret hold the same
letter. -/
theorem evaluate_guess_hit_count (g s : Word)
    (hg : IsGameWord g) (hs : IsGameWord s) :
    (evaluate_guess g s).count 2 =
      (g.zip s).countP (fun p => p.1 == p.2) :=
  evaluate_guess_count_two g s

/-- Witness for `evaluate_guess_hit_count`: "hello" vs "world" agree only
at position 3. -/
theorem evaluate_guess_hit_count_witness :
    IsGameWord "hello".toList ∧ IsGameWord "world".toList ∧
    (evaluate_guess "hello".toList "world".toList).count 2 =
      ("hello".toList.zip "world".toList).countP (fun p => p.1 == p.2) :=
  ⟨by decide, by decide,
    evaluate_guess_hit_count "hello".toList "world".toList
      (by decide) (by decide)⟩

/-- C8: the four fixtures from the specification, with Hit = 2,
Present = 1, Miss = 0. -/
theorem evaluate_guess_fixtures :
    evaluate_guess "hello".toList "world".toList = [0, 0, 0, 2, 1] ∧
    evaluate_guess "cheer".toList "chair".toList = [2, 2, 0, 0, 2] ∧
    evaluate_guess "bells".toList "label".toList = [1, 1, 1, 1, 0] ∧
    evaluate_guess "spear".toList "pears".toList = [1, 1, 1, 1, 1] := by
  decide

/-- C10: on length-5 inputs `evaluate_guess` is total and returns exactly
5 entries, each 0, 1 or 2, and a position marked Hit in pass 1 (equal
letters at that position) still carries 2 in the final feedback. -/
theorem evaluate_guess_safety (g s : Word)
    (hg : g.length = 5) (hs : s.length = 5) :
    (evaluate_guess g s).length = 5 ∧
    (∀ x ∈ evaluate_guess g s, x = 0 ∨ x = 1 ∨ x = 2) ∧
    (∀ i, i < 5 → g.getD i 'a' = s.getD i 'a' →
      (evaluate_guess g s).getD i 3 = 2) := by
  refine ⟨?_, ?_, ?_⟩
  · rw [evaluate_guess_length, hg, hs]
    decide
  · intro x hx
    rw [evaluate_guess_unfold] at hx
    refine pass2_mem s g _ _ ?_ x hx
    intro f hf
    exact zipWith_feedback_mem g s f hf
  · intro i hi heq
    rw [evaluate_guess_unfold]
    have hfb := zipWith_feedback_getD g s i (by omega) (by omega) heq
    have hz : (List.zipWith (fun a b => if a = b then 2 else 0) g s).getD
        i 3 ≠ 0 := by
      rw [hfb]; omega
    rw [pass2_getD_nonzero s g _ _ i 3 hz, hfb]

/-- Witness for `evaluate_guess_safety` on the "bells"/"label" pair. -/
theorem evaluate_guess_safety_witness :
    ("bells".toList).length = 5 ∧ ("chair".toList).length = 5 ∧
    ((evaluate_guess "bells".toList "chair".toList).length = 5 ∧
    (∀ x ∈ evaluate_guess "bells".toList "chair".toList,
      x = 0 ∨ x = 1 ∨ x = 2) ∧
    (∀ i, i < 5 →
      ("bells".toList).getD i 'a' = ("chair".toList).getD i 'a' →
      (evaluate_guess "bells".toList "chair".toList).getD i 3 = 2)) :=
  ⟨by decide, by decide,
    evaluate_guess_safety "bells".toList "chair".toList
      (by decide) (by decide)⟩

/-! ### Claim theorems about scoring and the score store -/

/-- C2: `calculate_score` returns
`final_score = max(0, 3600 - elapsed_seconds * 1)` and marks the score
valid exactly when `elapsed_seconds <= 3600`; `handle_win` persists a
score via `save_high_score` if and only if it is valid, so a score
computed at `elapsed_seconds = 3601` is never appended to the store. -/
theorem calculate_score_validity (total_seconds : Int)
    (file : Option (List CsvRow)) (player_name current_date : String) :
    (calculate_score total_seconds).1 =
      max 0 (3600 - total_seconds * 1) ∧
    ((calculate_score total_seconds).2.2 = true ↔ total_seconds ≤ 3600) ∧
    (total_seconds ≤ 3600 →
      handle_win file player_name total_seconds current_date =
        some (save_high_score file player_name
          (max 0 (3600 - total_seconds * 1)) current_date)) ∧
    (¬ total_seconds ≤ 3600 →
      handle_win file player_name total_seconds current_date = file) ∧
    handle_win file player_name 3601 current_date = file := by
  refine ⟨rfl, ?_, ?_, ?_, ?_⟩
  · simp [calculate_score, MAX_ALLOWED_TIME]
  · intro h
    simp [handle_win, calculate_score, MAX_ALLOWED_TIME, BASE_SCORE,
      TIME_PENALTY_PER_SECOND, h]
  · intro h
    simp [handle_win, calculate_score, MAX_ALLOWED_TIME, h]
  · simp [handle_win, calculate_score, MAX_ALLOWED_TIME]

/-- Witness for `calculate_score_validity`: a 100-second win is appended,
a 3601-second win leaves the store untouched. -/
theorem calculate_score_validity_witness :
    (handle_win (some []) "Ana" 100 "2026-01-01" =
      some (save_high_score (some []) "Ana" (max 0 (3600 - 100 * 1))
        "2026-01-01")) ∧
    handle_win (some []) "Bo" 3601 "2026-01-01" = some [] :=
  ⟨(calculate_score_validity 100 (some []) "Ana" "2026-01-01").2.2.1
      (by decide),
    (calculate_score_validity 3601 (some []) "Bo" "2026-01-01").2.2.2.1
      (by decide)⟩

/-- C9: `save_high_score` appends exactly one new row
`[score, name, date]` at the end of the store, writes the header row
first exactly when the store file did not previously exist, and leaves
every previously stored row unchanged. -/
theorem save_high_score_append (rows : List CsvRow)
    (player_name : String) (score : Int) (current_date : String) :
    save_high_score (some rows) player_name score current_date =
      rows ++ [[toString score, player_name, current_date]] ∧
    save_high_score none player_name score current_date =
      [["score", "name", "date"],
        [toString score, player_name, current_date]] ∧
    (save_high_score (some rows) player_name score current_date).take
        rows.length = rows ∧
    (save_high_score (some rows) player_name score current_date).length =
      rows.length + 1 := by
  refine ⟨rfl, rfl, ?_, ?_⟩
  · simp [save_high_score, List.take_left]
  · simp [save_high_score]

/-! ### Stability of the descending score sort -/

/-- `orderedInsert` with the descending score order is stable for the
elements of any fixed score `sc`: the inserted element passes only over
strictly higher scores, so it lands before every equal-score element
already present. -/
theorem filter_score_orderedInsert (sc : Int) (e : ScoreEntry)
    (l : List ScoreEntry) :
    (l.orderedInsert scoreGE e).filter (fun x => x.score == sc) =
      if e.score = sc
      then e :: l.filter (fun x => x.score == sc)
      else l.filter (fun x => x.score == sc) := by
  rw [List.orderedInsert_eq_take_drop, List.filter_append]
  by_cases he : e.score = sc
  · have htake : ∀ a ∈ l.takeWhile (fun b => decide (¬ scoreGE e b)),
        ¬ ((fun x : ScoreEntry => x.score == sc) a = true) := by
      intro a ha hsc
      have hp := List.mem_takeWhile_imp ha
      simp only [decide_eq_true_eq] at hp
      apply hp
      show a.score ≤ e.score
      have hasc : a.score = sc := by simpa using hsc
      rw [hasc, he]
    have htake2 : (l.takeWhile (fun b => decide (¬ scoreGE e b))).filter
        (fun x => x.score == sc) = [] := by
      rw [List.filter_eq_nil_iff]
      exact htake
    have hl : l.filter (fun x => x.score == sc) =
        (l.dropWhile (fun b => decide (¬ scoreGE e b))).filter
          (fun x => x.score == sc) := by
      conv_lhs =>
        rw [← List.takeWhile_append_dropWhile
          (fun b => decide (¬ scoreGE e b)) l]
      rw [List.filter_append, htake2, List.nil_append]
    rw [htake2, if_pos he, hl, List.nil_append, List.filter_cons]
    simp [he]
  · rw [if_neg he]
    conv_rhs =>
      rw [← List.takeWhile_append_dropWhile
        (fun b => decide (¬ scoreGE e b)) l]
    rw [List.filter_append, List.filter_cons]
    simp [he]

/-- Stability of `insertionSort` with the descending score order:
for every score `sc`, the subsequence of entries with that score is
unchanged, i.e. equal scores keep their original relative order. -/
theorem filter_score_insertionSort (sc : Int) :
    ∀ l : List ScoreEntry,
      (l.insertionSort scoreGE).filter (fun x => x.score == sc) =
        l.filter (fun x => x.score == sc) := by
  intro l
  induction l with
  | nil => rfl
  | cons e l ih =>
      rw [List.insertionSort, filter_score_orderedInsert, List.filter_cons]
      by_cases he : e.score = sc
      · rw [if_pos he, ih]
        simp [he]
      · rw [if_neg he, ih]
        simp [he]

theorem filterMap_filter_isSome (rows : List RawEntry) :
    (rows.filter (fun r => (parseScore r).isSome)).filterMap parseScore =
      rows.filterMap parseScore := by
  induction rows with
  | nil => rfl
  | cons r rows ih =>
      rcases hps : parseScore r with _ | e
      · simp [List.filter_cons, List.filterMap_cons, hps, ih]
      · simp [List.filter_cons, List.filterMap_cons, hps, ih]

/-- C3: `load_high_scores` discards records whose score is missing or not
an integer and continues with the rest, sorts the survivors by score
descending preserving file order among equal scores, and returns the
first 10; with 11 valid records it returns exactly the 10 highest,
sorted descending. -/
theorem load_high_scores_spec (rows : List RawEntry) :
    load_high_scores rows =
      (((rows.filter (fun r => (parseScore r).isSome)).filterMap
        parseScore).insertionSort scoreGE).take 10 ∧
    (load_high_scores rows).Sorted scoreGE ∧
    (∀ sc : Int,
      ((rows.filterMap parseScore).insertionSort scoreGE).filter
          (fun x => x.score == sc) =
        (rows.filterMap parseScore).filter (fun x => x.score == sc)) ∧
    (load_high_scores rows).length =
      min 10 (rows.filterMap parseScore).length ∧
    ((rows.filterMap parseScore).length = 11 →
      (load_high_scores rows).length = 10 ∧
      ∃ dropped,
        (load_high_scores rows ++ dropped).Perm
          (rows.filterMap parseScore) ∧
        ∀ a ∈ load_high_scores rows, ∀ b ∈ dropped,
          b.score ≤ a.score) := by
  refine ⟨?_, ?_, ?_, ?_, ?_⟩
  · rw [filterMap_filter_isSome]
    rfl
  · exact (List.sorted_insertionSort scoreGE _).sublist
      (List.take_sublist 10 _)
  · intro sc
    exact filter_score_insertionSort sc _
  · unfold load_high_scores
    rw [List.length_take, List.length_insertionSort]
  · intro h11
    have hlen : (load_high_scores rows).length = 10 := by
      unfold load_high_scores
      rw [List.length_take, List.length_insertionSort, h11]
      decide
    refine ⟨hlen,
      ((rows.filterMap parseScore).insertionSort scoreGE).drop 10, ?_, ?_⟩
    · have hsplit : load_high_scores rows ++
          ((rows.filterMap parseScore).insertionSort scoreGE).drop 10 =
          (rows.filterMap parseScore).insertionSort scoreGE :=
        List.take_append_drop 10 _
      rw [hsplit]
      exact List.perm_insertionSort scoreGE _
    · intro a ha b hb
      have hsorted := List.sorted_insertionSort scoreGE
        (rows.filterMap parseScore)
      have hsplit := (List.take_append_drop 10
        ((rows.filterMap parseScore).insertionSort scoreGE)).symm
      rw [List.Sorted, hsplit, List.pairwise_append] at hsorted
      exact hsorted.2.2 a ha b hb

/-- Witness for `load_high_scores_spec`: eleven valid rows and one
corrupted row; the loader keeps ten. -/
theorem load_high_scores_spec_witness :
    ((([⟨some (some 5), "a", "d"⟩, ⟨some none, "bad", "d"⟩,
        ⟨some (some 11), "b", "d"⟩, ⟨some (some 2), "c", "d"⟩,
        ⟨some (some 9), "e", "d"⟩, ⟨some (some 1), "f", "d"⟩,
        ⟨some (some 7), "g", "d"⟩, ⟨some (some 3), "h", "d"⟩,
        ⟨some (some 8), "i", "d"⟩, ⟨some (some 4), "j", "d"⟩,
        ⟨some (some 10), "k", "d"⟩, ⟨some (some 6), "l", "d"⟩] :
      List RawEntry).filterMap parseScore).length = 11) ∧
    (load_high_scores
      [⟨some (some 5), "a", "d"⟩, ⟨some none, "bad", "d"⟩,
        ⟨some (some 11), "b", "d"⟩, ⟨some (some 2), "c", "d"⟩,
        ⟨some (some 9), "e", "d"⟩, ⟨some (some 1), "f", "d"⟩,
        ⟨some (some 7), "g", "d"⟩, ⟨some (some 3), "h", "d"⟩,
        ⟨some (some 8), "i", "d"⟩, ⟨some (some 4), "j", "d"⟩,
        ⟨some (some 10), "k", "d"⟩, ⟨some (some 6), "l", "d"⟩]).length =
      10 :=
  ⟨by decide,
    ((load_high_scores_spec
      [⟨some (some 5), "a", "d"⟩, ⟨some none, "bad", "d"⟩,
        ⟨some (some 11), "b", "d"⟩, ⟨some (some 2), "c", "d"⟩,
        ⟨some (some 9), "e", "d"⟩, ⟨some (some 1), "f", "d"⟩,
        ⟨some (some 7), "g", "d"⟩, ⟨some (some 3), "h", "d"⟩,
        ⟨some (some 8), "i", "d"⟩, ⟨some (some 4), "j", "d"⟩,
        ⟨some (some 10), "k", "d"⟩, ⟨some (some 6), "l", "d"⟩]).2.2.2.2
      (by decide)).1⟩

/-! ### The attempt loop of `play_one_game` -/

theorem play_loop_stop (secret : Word) (gs : List Word) (a : Nat)
    (h : ¬ a < MAX_ATTEMPTS) : play_loop secret gs a = Outcome.Lost a := by
  cases gs <;> simp [play_loop, h]

theorem play_loop_cons_hit (secret g : Word) (gs : List Word) (a : Nat)
    (h : a < MAX_ATTEMPTS) (hgs : g = secret) :
    play_loop secret (g :: gs) a = Outcome.Won (a + 1) := by
  simp [play_loop, h, hgs]

theorem play_loop_cons_wrong (secret g : Word) (gs : List Word) (a : Nat)
    (h : a < MAX_ATTEMPTS) (hg : g ≠ secret) :
    play_loop secret (g :: gs) a = play_loop secret gs (a + 1) := by
  simp [play_loop, h, hg]

/-- A run of wrong guesses exhausting the attempt budget ends in
`Lost MAX_ATTEMPTS`, whatever input follows. -/
theorem play_loop_all_wrong (secret : Word) :
    ∀ (gs rest : List Word) (a : Nat),
      a + gs.length = MAX_ATTEMPTS → (∀ g ∈ gs, g ≠ secret) →
      play_loop secret (gs ++ rest) a = Outcome.Lost MAX_ATTEMPTS := by
  intro gs
  induction gs with
  | nil =>
      intro rest a ha _
      simp only [List.length_nil, Nat.add_zero] at ha
      have ha6 : ¬ a < MAX_ATTEMPTS := by omega
      rw [List.nil_append, play_loop_stop secret rest a ha6, ha]
  | cons g gs ih =>
      intro rest a ha hall
      have ha6 : a < MAX_ATTEMPTS := by
        simp only [List.length_cons] at ha
        omega
      rw [List.cons_append,
        play_loop_cons_wrong secret g (gs ++ rest) a ha6
          (hall g (List.mem_cons_self g gs))]
      exact ih rest (a + 1)
        (by simp only [List.length_cons] at ha; omega)
        (fun y hy => hall y (List.mem_cons_of_mem g hy))

/-- The loop never looks past the guesses its attempt budget covers. -/
theorem play_loop_take (secret : Word) :
    ∀ (gs : List Word) (a : Nat),
      play_loop secret gs a =
        play_loop secret (gs.take (MAX_ATTEMPTS - a)) a := by
  intro gs
  induction gs with
  | nil => intro a; simp
  | cons g gs ih =>
      intro a
      by_cases h : a < MAX_ATTEMPTS
      · have hsub : MAX_ATTEMPTS - a = (MAX_ATTEMPTS - (a + 1)) + 1 := by
          omega
        rw [hsub, List.take_succ_cons]
        by_cases hg : g = secret
        · rw [play_loop_cons_hit secret g gs a h hg,
            play_loop_cons_hit secret g _ a h hg]
        · rw [play_loop_cons_wrong secret g gs a h hg,
            play_loop_cons_wrong secret g _ a h hg, ih (a + 1)]
      · rw [play_loop_stop secret _ a h, play_loop_stop secret _ a h]

/-- C4: with `MAX_ATTEMPTS = 6`, a guess equal to the secret on the 3rd
valid submission ends the session `Won` with 3 attempts used; 6 wrong
valid submissions end it `Lost` with 6 attempts used; and the loop never
evaluates more than 6 valid guesses. -/
theorem play_loop_session (secret g1 g2 : Word) (guesses6 rest : List Word)
    (hg1 : g1 ≠ secret) (hg2 : g2 ≠ secret)
    (hlen : guesses6.length = 6) (hall : ∀ g ∈ guesses6, g ≠ secret) :
    play_loop secret (g1 :: g2 :: secret :: rest) 0 = Outcome.Won 3 ∧
    play_loop secret (guesses6 ++ rest) 0 = Outcome.Lost 6 ∧
    (∀ gs : List Word,
      play_loop secret gs 0 = play_loop secret (gs.take 6) 0) := by
  refine ⟨?_, ?_, ?_⟩
  · rw [play_loop_cons_wrong secret g1 _ 0 (by decide) hg1,
      play_loop_cons_wrong secret g2 _ 1 (by decide) hg2,
      play_loop_cons_hit secret secret _ 2 (by decide) rfl]
  · exact play_loop_all_wrong secret guesses6 rest 0
      (by rw [hlen]; rfl) hall
  · intro gs
    exact play_loop_take secret gs 0

/-- Witness for `play_loop_session` with a concrete secret and guesses. -/
theorem play_loop_session_witness :
    (play_loop "slate".toList
        ["crane".toList, "pound".toList, "slate".toList] 0 =
      Outcome.Won 3) ∧
    (play_loop "slate".toList
        ["crane".toList, "pound".toList, "mirth".toList, "gawky".toList,
          "crept".toList, "whiff".toList] 0 =
      Outcome.Lost 6) ∧
    (∀ gs : List Word,
      play_loop "slate".toList gs 0 =
        play_loop "slate".toList (gs.take 6) 0) := by
  have h := play_loop_session "slate".toList "crane".toList
    "pound".toList
    ["crane".toList, "pound".toList, "mirth".toList, "gawky".toList,
      "crept".toList, "whiff".toList] []
    (by decide) (by decide) (by decide) (by decide)
  refine ⟨h.1, ?_, h.2.2⟩
  have h2 := h.2.1
  rw [List.append_nil] at h2
  exact h2

/-! ### The input-validation loop `get_valid_guess` -/

/-- Every word `get_valid_guess` returns passed all three checks: length
5, purely alphabetic, and membership in the valid-word set. -/
theorem get_valid_guess_valid (valid_words : List Word) :
    ∀ stream g rest, get_valid_guess valid_words stream = some (g, rest) →
      g.length = SECRET_WORD_LENGTH ∧ g.all Char.isAlpha = true ∧
      g ∈ valid_words := by
  intro stream
  induction stream with
  | nil => intro g rest h; simp [get_valid_guess] at h
  | cons raw tail ih =>
      intro g rest h
      simp only [get_valid_guess] at h
      split_ifs at h with h1 h2 h3 h4 h5
      all_goals try exact ih g rest h
      cases h
      exact ⟨by omega, h4, h5⟩

/-- A raw input whose normalisation is the help command, empty, of the
wrong length, non-alphabetic, or out of vocabulary is skipped: the loop
just continues with the rest of the stream. -/
theorem get_valid_guess_skip (valid_words : List Word) (raw : List Char)
    (rest : List (List Char))
    (hbad : normInput raw = helpCommand ∨ normInput raw = [] ∨
      (normInput raw).length ≠ SECRET_WORD_LENGTH ∨
      ¬ ((normInput raw).all Char.isAlpha = true) ∨
      normInput raw ∉ valid_words) :
    get_valid_guess valid_words (raw :: rest) =
      get_valid_guess valid_words rest := by
  simp only [get_valid_guess]
  split_ifs with h1 h2 h3 h4 h5
  all_goals first
  | rfl
  | (exfalso; rcases hbad with h | h | h | h | h <;> contradiction)

theorem play_loop_raw_stop (valid_words : List Word) (secret : Word)
    (stream : List (List Char)) (a : Nat) (h : ¬ a < MAX_ATTEMPTS) :
    play_loop_raw valid_words secret stream a = Outcome.Lost a := by
  rw [play_loop_raw, dif_neg h]

/-- One accepted guess increments the attempt counter exactly once and
either wins or hands the remaining stream to the next iteration. -/
theorem play_loop_raw_step (valid_words : List Word) (secret : Word)
    (stream rest : List (List Char)) (g : Word) (a : Nat)
    (h : a < MAX_ATTEMPTS)
    (hg : get_valid_guess valid_words stream = some (g, rest)) :
    play_loop_raw valid_words secret stream a =
      if g = secret then Outcome.Won (a + 1)
      else play_loop_raw valid_words secret rest (a + 1) := by
  rw [play_loop_raw, dif_pos h, hg]

/-- Skipping an invalid raw input leaves the whole loop state (attempt
counter included) unchanged. -/
theorem play_loop_raw_skip (valid_words : List Word) (secret : Word)
    (raw : List Char) (rest : List (List Char)) (a : Nat)
    (hbad : normInput raw = helpCommand ∨ normInput raw = [] ∨
      (normInput raw).length ≠ SECRET_WORD_LENGTH ∨
      ¬ ((normInput raw).all Char.isAlpha = true) ∨
      normInput raw ∉ valid_words) :
    play_loop_raw valid_words secret (raw :: rest) a =
      play_loop_raw valid_words secret rest a := by
  by_cases h : a < MAX_ATTEMPTS
  · conv_lhs => rw [play_loop_raw]
    conv_rhs => rw [play_loop_raw]
    rw [dif_pos h, dif_pos h,
      get_valid_guess_skip valid_words raw rest hbad]
  · rw [play_loop_raw_stop valid_words secret _ a h,
      play_loop_raw_stop valid_words secret _ a h]

/-- C5: only valid guesses consume attempts.  `get_valid_guess` returns a
word only if it has exactly 5 characters, is purely alphabetic and is a
member of the valid-word set; any raw input failing one of these checks,
an empty input, or the help command is skipped and leaves the attempt
counter and loop state unchanged; and the counter is incremented exactly
once per word `get_valid_guess` returns. -/
theorem get_valid_guess_consumption (valid_words : List Word)
    (secret : Word) (stream rest : List (List Char)) (raw : List Char)
    (g : Word) (a : Nat) :
    (get_valid_guess valid_words stream = some (g, rest) →
      g.length = SECRET_WORD_LENGTH ∧ g.all Char.isAlpha = true ∧
      g ∈ valid_words) ∧
    ((normInput raw = helpCommand ∨ normInput raw = [] ∨
        (normInput raw).length ≠ SECRET_WORD_LENGTH ∨
        ¬ ((normInput raw).all Char.isAlpha = true) ∨
        normInput raw ∉ valid_words) →
      get_valid_guess valid_words (raw :: rest) =
        get_valid_guess valid_words rest ∧
      play_loop_raw valid_words secret (raw :: rest) a =
        play_loop_raw valid_words secret rest a) ∧
    (a < MAX_ATTEMPTS →
      get_valid_guess valid_words stream = some (g, rest) →
      play_loop_raw valid_words secret stream a =
        if g = secret then Outcome.Won (a + 1)
        else play_loop_raw valid_words secret rest (a + 1)) := by
  refine ⟨get_valid_guess_valid valid_words stream g rest, ?_, ?_⟩
  · intro hbad
    exact ⟨get_valid_guess_skip valid_words raw rest hbad,
      play_loop_raw_skip valid_words secret raw rest a hbad⟩
  · intro h hg
    exact play_loop_raw_step valid_words secret stream rest g a h hg

/-- Witness for `get_valid_guess_consumption`: the stream starts with a
help request and a too-short word, then the accepted guess "crane". -/
theorem get_valid_guess_consumption_witness :
    (("crane".toList).length = SECRET_WORD_LENGTH ∧
      ("crane".toList).all Char.isAlpha = true ∧
      "crane".toList ∈ ["crane".toList, "slate".toList]) ∧
    (get_valid_guess ["crane".toList, "slate".toList]
        ("help".toList :: ["crane".toList]) =
      get_valid_guess ["crane".toList, "slate".toList] ["crane".toList] ∧
      play_loop_raw ["crane".toList, "slate".toList] "slate".toList
          ("help".toList :: ["crane".toList]) 0 =
        play_loop_raw ["crane".toList, "slate".toList] "slate".toList
          ["crane".toList] 0) ∧
    play_loop_raw ["crane".toList, "slate".toList] "slate".toList
        ["crane".toList, "slate".toList] 0 =
      if "crane".toList = "slate".toList then Outcome.Won 1
      else play_loop_raw ["crane".toList, "slate".toList] "slate".toList
        ["slate".toList] 1 := by
  have h := get_valid_guess_consumption ["crane".toList, "slate".toList]
    "slate".toList ["crane".toList, "slate".toList] ["slate".toList]
    "help".toList "crane".toList 0
  refine ⟨h.1 (by decide), ?_, h.2.2 (by decide) (by decide)⟩
  have h2 := get_valid_guess_consumption ["crane".toList, "slate".toList]
    "slate".toList ["crane".toList, "slate".toList] ["crane".toList]
    "help".toList "crane".toList 0
  exact h2.2.1 (by decide)

end Wordle
